import Mathlib

/-!
Verification of the typographic-normalization core of the `coerce` library
(`src/mutator.ts`) and of the coercion pipeline's failure boundary
(`src/index.ts`).

The JavaScript source applies an ordered cascade of `String.replace` calls
with global regular expressions.  We embed this faithfully:

* `RE` is the abstract syntax of exactly the regex constructs the source
  uses (literals, character classes, concatenation, alternation, greedy
  star, capture groups, lookahead, the anchors `^` `$` `\b` `\B`).
* `matchR` enumerates all matches at a fixed position in JavaScript
  backtracking priority order (leftmost alternative first, greedy star:
  longer iteration chains first, a star iteration must consume at least one
  character, exactly as ECMAScript's RepeatMatcher behaves for these
  patterns).  The head of the list is the match JavaScript commits to.
* `replAux` reproduces `String.prototype.replace` with a global regex:
  scan left to right over the original subject, at the first position where
  the regex matches emit the substituted template and resume after the
  consumed characters (after one character for an empty match).

Matching is fuelled (`matchR` recurses structurally on a fuel counter so
that the kernel can evaluate it); every theorem about the engine below is
proved for arbitrary fuel, and the fuel supplied by `replaceAll` is
generously larger than the maximal possible backtracking depth for the
rules of the source.
-/

namespace Coerce

/-- ASCII apostrophe. -/
def apos : Char := Char.ofNat 39

/-- ASCII double quote. -/
def dquote : Char := Char.ofNat 34

/-- Left single curly quote U+2018. -/
def lsq : Char := Char.ofNat 0x2018

/-- Right single curly quote / curly apostrophe U+2019. -/
def rsq : Char := Char.ofNat 0x2019

/-- Left double curly quote U+201C. -/
def ldq : Char := Char.ofNat 0x201C

/-- Right double curly quote U+201D. -/
def rdq : Char := Char.ofNat 0x201D

/-- Prime U+2032. -/
def prime1 : Char := Char.ofNat 0x2032

/-- Double prime U+2033. -/
def prime2 : Char := Char.ofNat 0x2033

/-- Triple prime U+2034. -/
def prime3 : Char := Char.ofNat 0x2034

/-- Em dash U+2014. -/
def emdash : Char := Char.ofNat 0x2014

/-- Horizontal ellipsis U+2026. -/
def hellip : Char := Char.ofNat 0x2026

/-- JavaScript regex word character `\w` = `[A-Za-z0-9_]`. -/
def isWordChar (c : Char) : Bool :=
  (65 ≤ c.toNat && c.toNat ≤ 90) || (97 ≤ c.toNat && c.toNat ≤ 122) ||
  (48 ≤ c.toNat && c.toNat ≤ 57) || c.toNat == 95

/-- JavaScript regex whitespace `\s` (WhiteSpace ∪ LineTerminator); this is
also the set removed by `String.prototype.trim`. -/
def isJsSpace (c : Char) : Bool :=
  c.toNat == 9 || c.toNat == 10 || c.toNat == 11 || c.toNat == 12 ||
  c.toNat == 13 || c.toNat == 32 || c.toNat == 160 || c.toNat == 0x1680 ||
  (0x2000 ≤ c.toNat && c.toNat ≤ 0x200A) || c.toNat == 0x2028 ||
  c.toNat == 0x2029 || c.toNat == 0x202F || c.toNat == 0x205F ||
  c.toNat == 0x3000 || c.toNat == 0xFEFF

/-- `[A-Za-z]`; with the `i` flag the source classes `[a-z]` match this. -/
def alphaB (c : Char) : Bool :=
  (65 ≤ c.toNat && c.toNat ≤ 90) || (97 ≤ c.toNat && c.toNat ≤ 122)

/-- `[0-9]`. -/
def digitB (c : Char) : Bool :=
  48 ≤ c.toNat && c.toNat ≤ 57

/-- Regex abstract syntax: exactly the constructs used by `src/mutator.ts`. -/
inductive RE where
  | lit : Char → RE
  | cls : (Char → Bool) → RE
  | seq : RE → RE → RE
  | alt : RE → RE → RE
  | star : RE → RE
  | grp : Nat → RE → RE
  | look : RE → RE
  | bos : RE
  | eos : RE
  | wb : RE
  | nwb : RE

/-- Word-ness of an optional character; the edge of the string counts as
non-word for `\b`/`\B`. -/
def wordOpt : Option Char → Bool
  | none => false
  | some c => isWordChar c

/-- The character preceding the position reached after consuming `n`
characters of `rest`, when the character before `rest` was `prev`. -/
def prevCharAt (prev : Option Char) (rest : List Char) (n : Nat) : Option Char :=
  if n == 0 then prev else rest[n-1]?

/-- All matches of `re` at the start of `rest` (the character before `rest`
being `prev`), as pairs of consumed length and captured groups, in
JavaScript backtracking priority order.  Fuelled; every call strictly
decreases the fuel, so the kernel can reduce this function. -/
def matchR : Nat → RE → Option Char → List Char → List (Nat × List (Nat × List Char))
  | 0, _, _, _ => []
  | _+1, RE.lit c, _, rest =>
    match rest with
    | [] => []
    | a :: _ => if a == c then [(1, [])] else []
  | _+1, RE.cls p, _, rest =>
    match rest with
    | [] => []
    | a :: _ => if p a then [(1, [])] else []
  | fuel+1, RE.seq r1 r2, prev, rest =>
    (matchR fuel r1 prev rest).flatMap (fun x =>
      (matchR fuel r2 (prevCharAt prev rest x.1) (rest.drop x.1)).map
        (fun y => (x.1 + y.1, x.2 ++ y.2)))
  | fuel+1, RE.alt r1 r2, prev, rest =>
    matchR fuel r1 prev rest ++ matchR fuel r2 prev rest
  | fuel+1, RE.star r, prev, rest =>
    ((matchR fuel r prev rest).filter (fun x => x.1 != 0)).flatMap (fun x =>
      (matchR fuel (RE.star r) (prevCharAt prev rest x.1) (rest.drop x.1)).map
        (fun y => (x.1 + y.1, x.2 ++ y.2))) ++ [(0, [])]
  | fuel+1, RE.grp i r, prev, rest =>
    (matchR fuel r prev rest).map (fun x => (x.1, x.2 ++ [(i, rest.take x.1)]))
  | fuel+1, RE.look r, prev, rest =>
    if (matchR fuel r prev rest).isEmpty then [] else [(0, [])]
  | _+1, RE.bos, prev, _ =>
    if prev.isNone then [(0, [])] else []
  | _+1, RE.eos, _, rest =>
    if rest.isEmpty then [(0, [])] else []
  | _+1, RE.wb, prev, rest =>
    if wordOpt prev != wordOpt rest.head? then [(0, [])] else []
  | _+1, RE.nwb, prev, rest =>
    if wordOpt prev == wordOpt rest.head? then [(0, [])] else []

/-- The match JavaScript commits to at this position, if any. -/
def matchAt (mfuel : Nat) (re : RE) (prev : Option Char) (rest : List Char) :
    Option (Nat × List (Nat × List Char)) :=
  (matchR mfuel re prev rest).head?

/-- A piece of a replacement template: literal text or `$i`. -/
inductive TP where
  | str : List Char → TP
  | ref : Nat → TP

/-- Value of capture group `i`: the last capture recorded for `i`, or the
empty string when the group did not participate in the match. -/
def capGet (cps : List (Nat × List Char)) (i : Nat) : List Char :=
  ((cps.filter (fun p => p.1 == i)).getLast?).elim [] Prod.snd

/-- Instantiate a replacement template with the captures of a match. -/
def substT (t : List TP) (cps : List (Nat × List Char)) : List Char :=
  t.flatMap (fun p => match p with | TP.str s => s | TP.ref i => capGet cps i)

/-- One global-replace scan, exactly as `String.prototype.replace` with a
`g` regex: at each position of the original subject try the regex; on a
match emit the substituted template and continue after the consumed
characters (an empty match emits the template and then copies one
character).  `fuel` dominates the number of steps; `replaceAll` supplies
`length + 1`, which is always sufficient, and the fuel-exhausted fallback
is the identity. -/
def replAux (re : RE) (t : List TP) (mfuel : Nat) :
    Nat → Option Char → List Char → List Char
  | 0, _, rest => rest
  | fuel+1, prev, rest =>
    match matchAt mfuel re prev rest with
    | none =>
      match rest with
      | [] => []
      | a :: r => a :: replAux re t mfuel fuel (some a) r
    | some x =>
      if x.1 == 0 then
        substT t x.2 ++
          (match rest with
           | [] => []
           | a :: r => a :: replAux re t mfuel fuel (some a) r)
      else
        substT t x.2 ++ replAux re t mfuel fuel (prevCharAt prev rest x.1) (rest.drop x.1)

/-- `subject.replace(re, template)` with a global regex. -/
def replaceAll (re : RE) (t : List TP) (l : List Char) : List Char :=
  replAux re t (8 * l.length + 64) (l.length + 1) none l

/-- `[^‘’]`. -/
def notCurly1 (c : Char) : Bool := !(c == lsq) && !(c == rsq)

/-- Rule 1 of `quotes`: `/'''/g → '‴'` (triple prime). -/
def rule1 : RE × List TP :=
  (RE.seq (RE.lit apos) (RE.seq (RE.lit apos) (RE.lit apos)), [TP.str [prime3]])

/-- Rule 2: `/(\W|^)"(\w)/g → '$1“$2'` (beginning double quote). -/
def rule2 : RE × List TP :=
  (RE.seq (RE.grp 1 (RE.alt (RE.cls (fun c => !isWordChar c)) RE.bos))
    (RE.seq (RE.lit dquote) (RE.grp 2 (RE.cls isWordChar))),
   [TP.ref 1, TP.str [ldq], TP.ref 2])

/-- Rule 3: `/(“[^"]*)"([^"]*$|[^“"]*“)/g → '$1”$2'` (ending double quote). -/
def rule3 : RE × List TP :=
  (RE.seq (RE.grp 1 (RE.seq (RE.lit ldq) (RE.star (RE.cls (fun c => !(c == dquote))))))
    (RE.seq (RE.lit dquote)
      (RE.grp 2 (RE.alt
        (RE.seq (RE.star (RE.cls (fun c => !(c == dquote)))) RE.eos)
        (RE.seq (RE.star (RE.cls (fun c => !(c == ldq) && !(c == dquote)))) (RE.lit ldq))))),
   [TP.ref 1, TP.str [rdq], TP.ref 2])

/-- Rule 4: `/([^0-9])"/g → '$1”'` (remaining double quote at end of word). -/
def rule4 : RE × List TP :=
  (RE.seq (RE.grp 1 (RE.cls (fun c => !digitB c))) (RE.lit dquote),
   [TP.ref 1, TP.str [rdq]])

/-- Rule 5: `/''/g → '″'` (double prime as two single quotes). -/
def rule5 : RE × List TP :=
  (RE.seq (RE.lit apos) (RE.lit apos), [TP.str [prime2]])

/-- Rule 6: `/(\W|^)'(\S)/g → '$1‘$2'` (beginning single quote). -/
def rule6 : RE × List TP :=
  (RE.seq (RE.grp 1 (RE.alt (RE.cls (fun c => !isWordChar c)) RE.bos))
    (RE.seq (RE.lit apos) (RE.grp 2 (RE.cls (fun c => !isJsSpace c)))),
   [TP.ref 1, TP.str [lsq], TP.ref 2])

/-- Rule 7: `/([a-z])'([a-z])/gi → '$1’$2'` (conjunction possession). -/
def rule7 : RE × List TP :=
  (RE.seq (RE.grp 1 (RE.cls alphaB)) (RE.seq (RE.lit apos) (RE.grp 2 (RE.cls alphaB))),
   [TP.ref 1, TP.str [rsq], TP.ref 2])

/-- Rule 8: `/(‘)([0-9]{2}[^’]*)(‘([^0-9]|$)|$|’[a-z])/gi → '’$2$3'`
(abbreviated years such as `'93`). -/
def rule8 : RE × List TP :=
  (RE.seq (RE.grp 1 (RE.lit lsq))
    (RE.seq (RE.grp 2 (RE.seq (RE.cls digitB)
        (RE.seq (RE.cls digitB) (RE.star (RE.cls (fun c => !(c == rsq)))))))
      (RE.grp 3 (RE.alt
        (RE.seq (RE.lit lsq) (RE.grp 4 (RE.alt (RE.cls (fun c => !digitB c)) RE.eos)))
        (RE.alt RE.eos (RE.seq (RE.lit rsq) (RE.cls alphaB)))))),
   [TP.str [rsq], TP.ref 2, TP.ref 3])

/-- Rule 9: `/((‘[^']*)|[a-z])'([^0-9]|$)/gi → '$1’$3'` (ending single
quote). -/
def rule9 : RE × List TP :=
  (RE.seq (RE.grp 1 (RE.alt
      (RE.grp 2 (RE.seq (RE.lit lsq) (RE.star (RE.cls (fun c => !(c == apos))))))
      (RE.cls alphaB)))
    (RE.seq (RE.lit apos) (RE.grp 3 (RE.alt (RE.cls (fun c => !digitB c)) RE.eos))),
   [TP.ref 1, TP.str [rsq], TP.ref 3])

/-- Rule 10: `/(\B|^)‘(?=([^‘’]*’\b)*([^‘’]*\B\W[‘’]\b|[^‘’]*$))/gi → '$1’'`
(backwards apostrophe). -/
def rule10 : RE × List TP :=
  (RE.seq (RE.grp 1 (RE.alt RE.nwb RE.bos))
    (RE.seq (RE.lit lsq)
      (RE.look (RE.seq
        (RE.star (RE.grp 2 (RE.seq (RE.star (RE.cls notCurly1))
          (RE.seq (RE.lit rsq) RE.wb))))
        (RE.grp 3 (RE.alt
          (RE.seq (RE.star (RE.cls notCurly1))
            (RE.seq RE.nwb (RE.seq (RE.cls (fun c => !isWordChar c))
              (RE.seq (RE.cls (fun c => c == lsq || c == rsq)) RE.wb))))
          (RE.seq (RE.star (RE.cls notCurly1)) RE.eos)))))),
   [TP.ref 1, TP.str [rsq]])

/-- Rule 11: `/"/g → '″'` (double prime fallback). -/
def rule11 : RE × List TP := (RE.lit dquote, [TP.str [prime2]])

/-- Rule 12: `/'/g → '′'` (prime fallback). -/
def rule12 : RE × List TP := (RE.lit apos, [TP.str [prime1]])

/-- Rule 13: `/--/g → '—'` (em dash). -/
def rule13 : RE × List TP :=
  (RE.seq (RE.lit '-') (RE.lit '-'), [TP.str [emdash]])

/-- Rule 14: `/\.\.+/g → '…'` (ellipsis). -/
def rule14 : RE × List TP :=
  (RE.seq (RE.lit '.') (RE.seq (RE.lit '.') (RE.star (RE.lit '.'))), [TP.str [hellip]])

/-- The ordered rule list of `quotes` in `src/mutator.ts`. -/
def quoteRules : List (RE × List TP) :=
  [rule1, rule2, rule3, rule4, rule5, rule6, rule7,
   rule8, rule9, rule10, rule11, rule12, rule13, rule14]

/-- The `quotes` mutator on character lists: the source's
`reduce((subject, [search, replacement]) => subject.replace(search, replacement), value)`
over the rule list. -/
def quotesL (l : List Char) : List Char :=
  quoteRules.foldl (fun s r => replaceAll r.1 r.2 s) l

/-- `quotes` from `src/mutator.ts`. -/
def quotes (s : String) : String := ⟨quotesL s.data⟩

/-- JavaScript `toLowerCase` on one character, for the character repertoire
reachable inside `proper` (ASCII and the Latin-1 supplement, plus U+0178
which `toUpperCase` can produce): `A`–`Z` and `À`–`Þ` (except `×`) shift
down by 32, `Ÿ` maps to `ÿ`, everything else in the repertoire is fixed. -/
def jsToLowerChar (c : Char) : Char :=
  if 65 ≤ c.toNat && c.toNat ≤ 90 then Char.ofNat (c.toNat + 32)
  else if 0xC0 ≤ c.toNat && c.toNat ≤ 0xDE && !(c.toNat == 0xD7) then
    Char.ofNat (c.toNat + 32)
  else if c.toNat == 0x178 then Char.ofNat 0xFF
  else c

/-- JavaScript `toUpperCase` on one character (as a string, since `ß`
uppercases to `SS`), for the repertoire reachable inside `proper`:
`a`–`z` and `à`–`þ` (except `÷`) shift up by 32, `ß` maps to `SS`,
`ÿ` to `Ÿ` (U+0178), `µ` to `Μ` (U+039C), everything else is fixed. -/
def jsToUpperChar (c : Char) : List Char :=
  if 97 ≤ c.toNat && c.toNat ≤ 122 then [Char.ofNat (c.toNat - 32)]
  else if c.toNat == 0xDF then [Char.ofNat 83, Char.ofNat 83]
  else if 0xE0 ≤ c.toNat && c.toNat ≤ 0xFE && !(c.toNat == 0xF7) then
    [Char.ofNat (c.toNat - 32)]
  else if c.toNat == 0xFF then [Char.ofNat 0x178]
  else if c.toNat == 0xB5 then [Char.ofNat 0x39C]
  else [c]

/-- `value.toLowerCase()`. -/
def jsLower (l : List Char) : List Char := l.map jsToLowerChar

/-- `value.toUpperCase()`. -/
def jsUpper (l : List Char) : List Char := l.flatMap jsToUpperChar

/-- `ucFirst` from `src/mutator.ts`:
`value.charAt(0).toUpperCase() + value.slice(1)`. -/
def ucFirstL : List Char → List Char
  | [] => []
  | c :: r => jsToUpperChar c ++ r

/-- The `\S{2,}$` requirement of the compound-name fix-up: at least two
remaining characters, none of them whitespace. -/
def mcRestOk (rest : List Char) : Bool :=
  2 ≤ rest.length && rest.all (fun c => !isJsSpace c)

/-- The compound-name fix-up of `properNameCapitalizer`:
`.replace(/^(ma?c|[od]’)(\S{2,}$)/i, (_m, p1, p2) => ucFirst(p1) + ucFirst(p2))`.
The regex is anchored on both sides, so it either rewrites the whole token
or leaves it unchanged; the alternatives are tried in backtracking order
`mac`, `mc`, `[od]’`.  Case-insensitivity is rendered by comparing
lowercased characters. -/
def mcFix : List Char → List Char
  | c1 :: c2 :: c3 :: rest =>
    if jsToLowerChar c1 == 'm' && jsToLowerChar c2 == 'a' &&
        jsToLowerChar c3 == 'c' && mcRestOk rest then
      ucFirstL [c1, c2, c3] ++ ucFirstL rest
    else if jsToLowerChar c1 == 'm' && jsToLowerChar c2 == 'c' &&
        mcRestOk (c3 :: rest) then
      ucFirstL [c1, c2] ++ ucFirstL (c3 :: rest)
    else if (jsToLowerChar c1 == 'o' || jsToLowerChar c1 == 'd') &&
        c2 == rsq && mcRestOk (c3 :: rest) then
      ucFirstL [c1, c2] ++ ucFirstL (c3 :: rest)
    else c1 :: c2 :: c3 :: rest
  | [] => []
  | [c1] => [c1]
  | [c1, c2] => [c1, c2]

/-- The roman-numeral suffix list `['ii', 'iii', 'iv', 'v']`. -/
def romanL : List (List Char) := [['i','i'], ['i','i','i'], ['i','v'], ['v']]

/-- The name-particle list `['dit', 'de', 'von']`. -/
def particleL : List (List Char) := [['d','i','t'], ['d','e'], ['v','o','n']]

/-- `properNameCapitalizer` from `src/mutator.ts`, applied to one token. -/
def properNameCapitalizerL (mixedCase : Bool) (m : List Char) : List Char :=
  let lower := jsLower m
  if m.length == 1 then jsUpper m
  else if m.length ≤ 3 then
    if romanL.contains lower then jsUpper m
    else if particleL.contains lower then lower
    else if mixedCase then m
    else mcFix (ucFirstL lower)
  else mcFix (ucFirstL lower)

/-- The character class kept by `proper`'s restriction step
`[A-Za-z0-9À-ÿ’ ,-]`. -/
def allowedInB (c : Char) : Bool :=
  (65 ≤ c.toNat && c.toNat ≤ 90) || (97 ≤ c.toNat && c.toNat ≤ 122) ||
  (48 ≤ c.toNat && c.toNat ≤ 57) || (0xC0 ≤ c.toNat && c.toNat ≤ 0xFF) ||
  c.toNat == 0x2019 || c.toNat == 32 || c.toNat == 44 || c.toNat == 45

/-- Token separators of `proper`'s final replace: the complement of
`[^ ,-]`. -/
def isSepC (c : Char) : Bool :=
  c.toNat == 32 || c.toNat == 44 || c.toNat == 45

/-- Fuelled worker for `.replace(/  +/g, ' ')`: a maximal run of two or
more spaces becomes a single space.  `collapseSpaces` supplies sufficient
fuel (the recursion consumes at least one character per step). -/
def collapseAux : Nat → List Char → List Char
  | 0, l => l
  | _+1, [] => []
  | fuel+1, c :: r =>
    if c == ' ' && r.head? == some ' ' then
      ' ' :: collapseAux fuel (r.dropWhile (fun d => d == ' '))
    else c :: collapseAux fuel r

/-- `.replace(/  +/g, ' ')`. -/
def collapseSpaces (l : List Char) : List Char := collapseAux (l.length + 1) l

/-- Remove trailing JavaScript whitespace. -/
def trimRightL : List Char → List Char
  | [] => []
  | c :: r =>
    match trimRightL r with
    | [] => if isJsSpace c then [] else [c]
    | d :: r' => c :: d :: r'

/-- `String.prototype.trim`. -/
def trimL (l : List Char) : List Char := trimRightL (l.dropWhile isJsSpace)

/-- Fuelled worker for `.replace(/([^ ,-]+)/g, f)`: rewrite every maximal
run of non-separator characters with `f`, copying separators verbatim. -/
def mapTokensAux (f : List Char → List Char) : Nat → List Char → List Char
  | 0, l => l
  | _+1, [] => []
  | fuel+1, c :: r =>
    if isSepC c then c :: mapTokensAux f fuel r
    else
      f (c :: r.takeWhile (fun d => !isSepC d)) ++
        mapTokensAux f fuel (r.dropWhile (fun d => !isSepC d))

/-- `.replace(/([^ ,-]+)/g, f)`. -/
def mapTokens (f : List Char → List Char) (l : List Char) : List Char :=
  mapTokensAux f (l.length + 1) l

/-- `hasBothUpperAndLower` from `src/mutator.ts`:
`/[A-Z]/.test(value) && /[a-z]/.test(value)`. -/
def hasBothUpperAndLowerL (l : List Char) : Bool :=
  l.any (fun c => 65 ≤ c.toNat && c.toNat ≤ 90) &&
  l.any (fun c => 97 ≤ c.toNat && c.toNat ≤ 122)

/-- `proper` from `src/mutator.ts` on character lists: restrict the
character set, collapse double spacing, trim, then rewrite each token with
`properNameCapitalizer(hasBothUpperAndLower(value))`, where the flag is
computed on the original input. -/
def properL (l : List Char) : List Char :=
  mapTokens (properNameCapitalizerL (hasBothUpperAndLowerL l))
    (trimL (collapseSpaces (l.map (fun c => if allowedInB c then c else ' '))))

/-- `proper` from `src/mutator.ts`. -/
def proper (s : String) : String := ⟨properL s.data⟩

/-- `hasBothUpperAndLower` on strings. -/
def hasBothUpperAndLower (s : String) : Bool := hasBothUpperAndLowerL s.data

/-- A JavaScript `Error` value, as used by the coercion pipeline. -/
structure ErrorV where
  message : String
deriving DecidableEq

/-- The `otherwise` argument of `.or()` in `src/index.ts`, sorted by the
`typeof`/`instanceof` tests of `handleFailure`: a function producing an
error, an `Error` instance, or any other value. -/
inductive Otherwise (V : Type) where
  | func : (ErrorV → ErrorV) → Otherwise V
  | err : ErrorV → Otherwise V
  | val : V → Otherwise V

/-- The observable result of running the pipeline: a thrown error or a
returned value. -/
inductive Outcome (V : Type) where
  | thrown : ErrorV → Outcome V
  | returned : V → Outcome V
deriving DecidableEq

/-- `handleFailure` from `src/index.ts`: throw the result of a function
`otherwise`, throw an `Error` instance `otherwise`, or return any other
`otherwise` as the result. -/
def handleFailure {V : Type} (otherwise : Otherwise V) (error : ErrorV) : Outcome V :=
  match otherwise with
  | Otherwise.func f => Outcome.thrown (f error)
  | Otherwise.err e => Outcome.thrown e
  | Otherwise.val v => Outcome.returned v

/-- `pipe` from `src/index.ts`: thread the value through the sanitizer
list, propagating a thrown error (rendered as `Except`). -/
def pipe {V : Type} (value : V) : List (V → Except ErrorV V) → Except ErrorV V
  | [] => Except.ok value
  | f :: fs =>
    match f value with
    | Except.ok v => pipe v fs
    | Except.error e => Except.error e

/-- `coerce(value).to(...sanitizers).or(otherwise)` from `src/index.ts`:
run the pipe inside `try`; on a thrown error delegate to `handleFailure`. -/
def coerceTo {V : Type} (value : V) (sanitizers : List (V → Except ErrorV V))
    (otherwise : Otherwise V) : Outcome V :=
  match pipe value sanitizers with
  | Except.ok v => Outcome.returned v
  | Except.error e => handleFailure otherwise e

/-- Mandatory-character analysis: `mcB re c = true` guarantees that every
string matched by `re` contains the character `c` (soundness is proved in
`mcB_sound`).  Stars, lookaheads and anchors can match without consuming,
so they report `false`. -/
def mcB : RE → Char → Bool
  | RE.lit c', c => c' == c
  | RE.cls _, _ => false
  | RE.seq r1 r2, c => mcB r1 c || mcB r2 c
  | RE.alt r1 r2, c => mcB r1 c && mcB r2 c
  | RE.star _, _ => false
  | RE.grp _ r, c => mcB r c
  | RE.look _, _ => false
  | RE.bos, _ => false
  | RE.eos, _ => false
  | RE.wb, _ => false
  | RE.nwb, _ => false

/-- The literal characters of a replacement template. -/
def tpLits (t : List TP) : List Char :=
  t.flatMap (fun p => match p with | TP.str s => s | TP.ref _ => [])

/-- A template with no capture references. -/
def grpFreeT (t : List TP) : Bool :=
  t.all (fun p => match p with | TP.str _ => true | TP.ref _ => false)

/-- The output character set that claim C6 asserts for `proper`: letters
(ASCII letters, Latin-1 supplement letters — the multiplication and
division signs U+00D7 and U+00F7 are not letters — and the letter Ÿ
U+0178), digits, the curly apostrophe, space, comma and hyphen. -/
def claimC6Allowed (c : Char) : Bool :=
  (65 ≤ c.toNat && c.toNat ≤ 90) || (97 ≤ c.toNat && c.toNat ≤ 122) ||
  (0xC0 ≤ c.toNat && c.toNat ≤ 0xFF && !(c.toNat == 0xD7) && !(c.toNat == 0xF7)) ||
  c.toNat == 0x178 ||
  (48 ≤ c.toNat && c.toNat ≤ 57) || c.toNat == 0x2019 || c.toNat == 32 ||
  c.toNat == 44 || c.toNat == 45

/-- The first character, if any, is not a space. -/
def headNotSp (l : List Char) : Bool :=
  match l with
  | [] => true
  | c :: _ => !(c == ' ')

/-- The last character, if any, is not a space. -/
def lastNotSp (l : List Char) : Bool :=
  match l.getLast? with
  | none => true
  | some c => !(c == ' ')

/-- No two adjacent characters are both spaces. -/
def noDoubleSp : List Char → Bool
  | [] => true
  | [_] => true
  | a :: b :: r => !(a == ' ' && b == ' ') && noDoubleSp (b :: r)

/-- The adjacency relation underlying `noDoubleSp`. -/
def spR (a b : Char) : Prop := ¬(a = ' ' ∧ b = ' ')

/-- The input `"it's the '90s"` as a character list. -/
def decadeIn : List Char :=
  ['i','t', apos, 's', ' ', 't', 'h', 'e', ' ', apos, '9', '0', 's']

/-- The expected output `"it’s the ’90s"` as a character list. -/
def decadeOut : List Char :=
  ['i','t', rsq, 's', ' ', 't', 'h', 'e', ' ', rsq, '9', '0', 's']

/-- The input `"john q. o'donnel, III"` as a character list. -/
def donnelIn : List Char :=
  ['j','o','h','n',' ','q','.',' ','o', apos, 'd','o','n','n','e','l',',',' ','I','I','I']

/-- The expected output `"John Q O’Donnel, III"` as a character list. -/
def donnelOut : List Char :=
  ['J','o','h','n',' ','Q',' ','O', rsq, 'D','o','n','n','e','l',',',' ','I','I','I']

end Coerce

namespace Coerce

/-- Soundness of the mandatory-character analysis: any match of `re`
contains every character that `mcB` reports, within its consumed prefix. -/
theorem mcB_sound (c : Char) :
    ∀ (fuel : Nat) (re : RE) (prev : Option Char) (rest : List Char)
      (x : Nat × List (Nat × List Char)),
      x ∈ matchR fuel re prev rest → mcB re c = true → c ∈ rest.take x.1 := by
  intro fuel
  induction fuel with
  | zero => intro re prev rest x hx; simp [matchR] at hx
  | succ fuel ih =>
    intro re prev rest x hx hmc
    cases re with
    | lit c' =>
      cases rest with
      | nil => simp [matchR] at hx
      | cons a r =>
        simp only [matchR] at hx
        by_cases hac : a == c'
        · simp [hac] at hx
          simp only [mcB] at hmc
          subst hx
          simp only [List.take_succ_cons, List.take_zero]
          have : a = c' := by simpa using hac
          have : c' = c := by simpa using hmc
          simp_all
        · simp [hac] at hx
    | cls p => simp [mcB] at hmc
    | seq r1 r2 =>
      simp only [matchR, List.mem_flatMap, List.mem_map] at hx
      obtain ⟨a, ha, b, hb, hab⟩ := hx
      simp only [mcB, Bool.or_eq_true] at hmc
      subst hab
      simp only
      rw [List.take_add]
      rcases hmc with hmc | hmc
      · exact List.mem_append_left _ (ih r1 prev rest a ha hmc)
      · exact List.mem_append_right _ (ih r2 _ _ b hb hmc)
    | alt r1 r2 =>
      simp only [matchR, List.mem_append] at hx
      simp only [mcB, Bool.and_eq_true] at hmc
      rcases hx with hx | hx
      · exact ih r1 prev rest x hx hmc.1
      · exact ih r2 prev rest x hx hmc.2
    | star r => simp [mcB] at hmc
    | grp i r =>
      simp only [matchR, List.mem_map] at hx
      obtain ⟨a, ha, hax⟩ := hx
      subst hax
      exact ih r prev rest a ha (by simpa [mcB] using hmc)
    | look r => simp [mcB] at hmc
    | bos => simp [mcB] at hmc
    | eos => simp [mcB] at hmc
    | wb => simp [mcB] at hmc
    | nwb => simp [mcB] at hmc

/-- If `re` necessarily contains `c` and `c` does not occur in the suffix
being scanned, the regex cannot match there. -/
theorem matchAt_none_of_mc (mfuel : Nat) (re : RE) (c : Char)
    (prev : Option Char) (rest : List Char) (hmc : mcB re c = true)
    (hc : c ∉ rest) : matchAt mfuel re prev rest = none := by
  unfold matchAt
  cases h : matchR mfuel re prev rest with
  | nil => rfl
  | cons a l =>
    exfalso
    have ha : a ∈ matchR mfuel re prev rest := by rw [h]; exact List.mem_cons_self a l
    exact hc (List.take_subset _ _ (mcB_sound c mfuel re prev rest a ha hmc))

/-- A global replace whose regex matches nowhere in any suffix of `l` is
the identity. -/
theorem replAux_id (re : RE) (t : List TP) (mfuel : Nat) (l : List Char)
    (hno : ∀ (prev : Option Char) (rest : List Char), rest <:+ l →
      matchAt mfuel re prev rest = none) :
    ∀ (fuel : Nat) (prev : Option Char) (rest : List Char), rest <:+ l →
      replAux re t mfuel fuel prev rest = rest := by
  intro fuel
  induction fuel with
  | zero => intro prev rest _; rfl
  | succ fuel ih =>
    intro prev rest hrest
    simp only [replAux, hno prev rest hrest]
    cases rest with
    | nil => rfl
    | cons a r =>
      have hr : r <:+ l := ((List.suffix_cons a r).trans hrest)
      show a :: replAux re t mfuel fuel (some a) r = a :: r
      rw [ih (some a) r hr]

/-- If the regex of a rule necessarily contains a character that does not
occur in `l`, the rule leaves `l` unchanged. -/
theorem replaceAll_id_of_mc (re : RE) (t : List TP) (c : Char)
    (hmc : mcB re c = true) (l : List Char) (hc : c ∉ l) :
    replaceAll re t l = l := by
  refine replAux_id re t _ l (fun prev rest hrest => ?_) _ none l List.suffix_rfl
  exact matchAt_none_of_mc _ re c prev rest hmc
    (fun hmem => hc (hrest.subset hmem))

/-- Elimination for a single-literal match: the scanned suffix starts with
the literal and exactly one character is consumed. -/
theorem matchR_lit_elim (fuel : Nat) (ch : Char) (prev : Option Char)
    (rest : List Char) (x : Nat × List (Nat × List Char))
    (hx : x ∈ matchR fuel (RE.lit ch) prev rest) :
    ∃ r, rest = ch :: r ∧ x.1 = 1 := by
  cases fuel with
  | zero => simp [matchR] at hx
  | succ fuel =>
    cases rest with
    | nil => simp [matchR] at hx
    | cons a r =>
      simp only [matchR] at hx
      by_cases hac : a == ch
      · simp [hac] at hx
        have : a = ch := by simpa using hac
        exact ⟨r, by rw [this], by rw [hx]⟩
      · simp [hac] at hx

/-- A match of `/c1c2/` forces the scanned suffix to start with `c1 c2`. -/
theorem matchR_two_lits (fuel : Nat) (c1 c2 : Char) (prev : Option Char)
    (rest : List Char) (x : Nat × List (Nat × List Char))
    (hx : x ∈ matchR fuel (RE.seq (RE.lit c1) (RE.lit c2)) prev rest) :
    [c1, c2] <+: rest := by
  cases fuel with
  | zero => simp [matchR] at hx
  | succ fuel =>
    simp only [matchR, List.mem_flatMap, List.mem_map] at hx
    obtain ⟨a, ha, b, hb, -⟩ := hx
    obtain ⟨r, hr, ha1⟩ := matchR_lit_elim fuel c1 prev rest a ha
    rw [hr, ha1] at hb
    rw [hr]
    have hb' : b ∈ matchR fuel (RE.lit c2) (prevCharAt prev (c1 :: r) 1) r := by
      simpa using hb
    obtain ⟨r', hr', -⟩ := matchR_lit_elim fuel c2 _ _ b hb'
    exact ⟨r', by simp [hr']⟩

/-- A match of `/c1c2…/` (two literals followed by anything) forces the
scanned suffix to start with `c1 c2`. -/
theorem matchR_two_lits_then (fuel : Nat) (c1 c2 : Char) (r3 : RE)
    (prev : Option Char) (rest : List Char) (x : Nat × List (Nat × List Char))
    (hx : x ∈ matchR fuel (RE.seq (RE.lit c1) (RE.seq (RE.lit c2) r3)) prev rest) :
    [c1, c2] <+: rest := by
  cases fuel with
  | zero => simp [matchR] at hx
  | succ fuel =>
    simp only [matchR, List.mem_flatMap, List.mem_map] at hx
    obtain ⟨a, ha, b, hb, -⟩ := hx
    obtain ⟨r, hr, ha1⟩ := matchR_lit_elim fuel c1 prev rest a ha
    rw [hr, ha1] at hb
    rw [hr]
    have hb' : b ∈ matchR fuel ((RE.lit c2).seq r3) (prevCharAt prev (c1 :: r) 1) r := by
      simpa using hb
    cases fuel with
    | zero => simp [matchR] at hb'
    | succ fuel =>
      simp only [matchR, List.mem_flatMap, List.mem_map] at hb'
      obtain ⟨a', ha', -⟩ := hb'
      obtain ⟨r', hr', -⟩ := matchR_lit_elim fuel c2 _ r a' ha'
      exact ⟨r', by simp [hr']⟩

/-- Rule 13 (`/--/g`) leaves any string with no two consecutive hyphens
unchanged. -/
theorem rule13_id (l : List Char) (h : ¬ ['-','-'] <:+: l) :
    replaceAll rule13.1 rule13.2 l = l := by
  refine replAux_id _ _ _ l (fun prev rest hrest => ?_) _ none l List.suffix_rfl
  unfold matchAt
  cases hm : matchR (8 * l.length + 64) rule13.1 prev rest with
  | nil => rfl
  | cons a t =>
    exfalso
    have ha : a ∈ matchR (8 * l.length + 64) rule13.1 prev rest := by
      rw [hm]; exact List.mem_cons_self a t
    exact h ((matchR_two_lits _ _ _ prev rest a ha).isInfix.trans hrest.isInfix)

/-- Rule 14 (`/\.\.+/g`) leaves any string with no two consecutive periods
unchanged. -/
theorem rule14_id (l : List Char) (h : ¬ ['.','.'] <:+: l) :
    replaceAll rule14.1 rule14.2 l = l := by
  refine replAux_id _ _ _ l (fun prev rest hrest => ?_) _ none l List.suffix_rfl
  unfold matchAt
  cases hm : matchR (8 * l.length + 64) rule14.1 prev rest with
  | nil => rfl
  | cons a t =>
    exfalso
    have ha : a ∈ matchR (8 * l.length + 64) rule14.1 prev rest := by
      rw [hm]; exact List.mem_cons_self a t
    exact h ((matchR_two_lits_then _ _ _ _ prev rest a ha).isInfix.trans hrest.isInfix)

/-- On input containing no straight apostrophe, no straight double quote,
no opening curly single quote, no double hyphen and no double period, the
whole `quotes` cascade is the identity: every rule's regex necessarily
consumes one of those characters. -/
theorem quotesL_id (l : List Char) (h1 : apos ∉ l) (h2 : dquote ∉ l)
    (h3 : lsq ∉ l) (h4 : ¬ ['-','-'] <:+: l) (h5 : ¬ ['.','.'] <:+: l) :
    quotesL l = l := by
  unfold quotesL quoteRules
  simp only [List.foldl_cons, List.foldl_nil]
  rw [replaceAll_id_of_mc rule1.1 rule1.2 apos (by decide) l h1,
      replaceAll_id_of_mc rule2.1 rule2.2 dquote (by decide) l h2,
      replaceAll_id_of_mc rule3.1 rule3.2 dquote (by decide) l h2,
      replaceAll_id_of_mc rule4.1 rule4.2 dquote (by decide) l h2,
      replaceAll_id_of_mc rule5.1 rule5.2 apos (by decide) l h1,
      replaceAll_id_of_mc rule6.1 rule6.2 apos (by decide) l h1,
      replaceAll_id_of_mc rule7.1 rule7.2 apos (by decide) l h1,
      replaceAll_id_of_mc rule8.1 rule8.2 lsq (by decide) l h3,
      replaceAll_id_of_mc rule9.1 rule9.2 apos (by decide) l h1,
      replaceAll_id_of_mc rule10.1 rule10.2 lsq (by decide) l h3,
      replaceAll_id_of_mc rule11.1 rule11.2 dquote (by decide) l h2,
      replaceAll_id_of_mc rule12.1 rule12.2 apos (by decide) l h1,
      rule13_id l h4, rule14_id l h5]

/-- Substituting a capture-free template yields exactly its literal
characters. -/
theorem substT_grpFree (t : List TP) (hg : grpFreeT t = true)
    (cps : List (Nat × List Char)) : substT t cps = tpLits t := by
  induction t with
  | nil => rfl
  | cons p t ih =>
    simp only [grpFreeT, List.all_cons, Bool.and_eq_true] at hg
    cases p with
    | str s => simp only [substT, tpLits, List.flatMap_cons] at *; rw [ih hg.2]
    | ref i => simp [grpFreeT] at hg

/-- Characters of a global replace with a capture-free template come from
the subject or from the template. -/
theorem replAux_chars (re : RE) (t : List TP) (mfuel : Nat)
    (hg : grpFreeT t = true) :
    ∀ (fuel : Nat) (prev : Option Char) (rest : List Char) (c : Char),
      c ∈ replAux re t mfuel fuel prev rest → c ∈ rest ∨ c ∈ tpLits t := by
  intro fuel
  induction fuel with
  | zero => intro prev rest c hc; exact Or.inl hc
  | succ fuel ih =>
    intro prev rest c hc
    simp only [replAux] at hc
    cases hm : matchAt mfuel re prev rest with
    | none =>
      rw [hm] at hc
      cases rest with
      | nil => simp at hc
      | cons a r =>
        simp only [List.mem_cons] at hc
        rcases hc with hc | hc
        · exact Or.inl (by simp [hc])
        · rcases ih (some a) r c hc with h | h
          · exact Or.inl (List.mem_cons_of_mem a h)
          · exact Or.inr h
    | some x =>
      rw [hm] at hc
      by_cases hx0 : x.1 == 0
      · simp only [hx0, if_true, List.mem_append] at hc
        rcases hc with hc | hc
        · exact Or.inr (by rwa [substT_grpFree t hg] at hc)
        · cases rest with
          | nil => simp at hc
          | cons a r =>
            simp only [List.mem_cons] at hc
            rcases hc with hc | hc
            · exact Or.inl (by simp [hc])
            · rcases ih (some a) r c hc with h | h
              · exact Or.inl (List.mem_cons_of_mem a h)
              · exact Or.inr h
      · simp only [hx0, if_false, List.mem_append, Bool.false_eq_true] at hc
        rcases hc with hc | hc
        · exact Or.inr (by rwa [substT_grpFree t hg] at hc)
        · rcases ih _ _ c hc with h | h
          · exact Or.inl (List.drop_subset _ _ h)
          · exact Or.inr h

/-- A global replace of a single literal character (with a capture-free
template not containing that character) eliminates it completely. -/
theorem replAux_lit_complete (ch : Char) (t : List TP)
    (hg : grpFreeT t = true) (hch : ch ∉ tpLits t) (mfuel : Nat)
    (hm : 1 ≤ mfuel) :
    ∀ (fuel : Nat) (prev : Option Char) (rest : List Char),
      rest.length < fuel → ch ∉ replAux (RE.lit ch) t mfuel fuel prev rest := by
  intro fuel
  induction fuel with
  | zero => intro prev rest h; omega
  | succ fuel ih =>
    intro prev rest hlen
    cases rest with
    | nil =>
      have : matchAt mfuel (RE.lit ch) prev [] = none := by
        unfold matchAt
        cases mfuel with
        | zero => rfl
        | succ m => simp [matchR]
      simp [replAux, this]
    | cons a r =>
      by_cases hac : a = ch
      · obtain ⟨m, rfl⟩ : ∃ m, mfuel = m + 1 := ⟨mfuel - 1, by omega⟩
        have hat : matchAt (m+1) (RE.lit ch) prev (a :: r) = some (1, []) := by
          unfold matchAt
          simp [matchR, hac]
        simp only [replAux, hat]
        intro hmem
        simp only [show ((1:Nat) == 0) = false from rfl, if_false,
          List.mem_append, Bool.false_eq_true] at hmem
        rcases hmem with hmem | hmem
        · rw [substT_grpFree t hg] at hmem
          exact hch hmem
        · have : r.length < fuel := by simpa using Nat.lt_of_succ_lt_succ hlen
          exact ih _ r this (by simpa using hmem)
      · have hat : matchAt mfuel (RE.lit ch) prev (a :: r) = none := by
          unfold matchAt
          cases mfuel with
          | zero => rfl
          | succ m => simp [matchR, hac]
        simp only [replAux, hat]
        intro hmem
        simp only [List.mem_cons] at hmem
        rcases hmem with hmem | hmem
        · exact hac hmem.symm
        · have : r.length < fuel := by simpa using Nat.lt_of_succ_lt_succ hlen
          exact ih _ r this hmem

/-- C1: on the input `"it's the '90s"`, `quotes` turns the apostrophe of
`it's` into the curly apostrophe U+2019 (rule 7) and the apostrophe of
`'90s` — first misread as an opening quote by rule 6 — into a
closing-style curly apostrophe U+2019 by the decade-abbreviation rule 8,
not the opening quote U+2018. -/
theorem claim_C1 : quotes ⟨decadeIn⟩ = ⟨decadeOut⟩ := by decide

/-- C2: composing the two core stages on `"john q. o'donnel, III"` (first
`quotes`, then `proper`) yields exactly `"John Q O’Donnel, III"`: the
period is dropped by the character-set restriction, the length-1 token `q`
is uppercased, `o’donnel` gets both the prefix and the remainder
capitalized, and `III` is uppercased as a roman-numeral suffix. -/
theorem claim_C2 : proper (quotes ⟨donnelIn⟩) = ⟨donnelOut⟩ := by decide

/-- C4: a token of length at most 3 whose lowercase form is in the particle
list `{dit, de, von}` is rewritten to its all-lowercase form by
`properNameCapitalizer`, regardless of the document-level mixed-case flag —
the particle check runs before the mixed-case check; in particular
`proper "VON Trap" = "von Trap"`. -/
theorem claim_C4 (mixedCase : Bool) (m : List Char) (hlen : m.length ≤ 3)
    (hp : particleL.contains (jsLower m) = true) :
    properNameCapitalizerL mixedCase m = jsLower m ∧ proper "VON Trap" = "von Trap" := by
  refine ⟨?_, by decide⟩
  have hmem : jsLower m ∈ particleL := by
    simpa using hp
  have hlm : (jsLower m).length = m.length := List.length_map _ _
  simp only [particleL, List.mem_cons, List.not_mem_nil, or_false] at hmem
  rcases hmem with h | h | h
  · have hl : m.length = 3 := by rw [← hlm, h]; rfl
    simp [properNameCapitalizerL, hl, h, romanL, particleL]
  · have hl : m.length = 2 := by rw [← hlm, h]; rfl
    simp [properNameCapitalizerL, hl, h, romanL, particleL]
  · have hl : m.length = 3 := by rw [← hlm, h]; rfl
    simp [properNameCapitalizerL, hl, h, romanL, particleL]

/-- C4 witness: instantiating at the token `VON` with the mixed-case flag
set. -/
theorem claim_C4_witness :
    properNameCapitalizerL true ['V','O','N'] = jsLower ['V','O','N'] ∧
      proper "VON Trap" = "von Trap" :=
  claim_C4 true ['V','O','N'] (by decide) (by decide)

/-- C5: the document-level flag is `hasBothUpperAndLower` of the original
input, true exactly when the input contains an ASCII uppercase and an
ASCII lowercase letter; when true, every token of length 2 or 3 that is
neither a roman-numeral suffix nor a particle is left unchanged; in
particular `proper "ABC company" = "ABC Company"`. -/
theorem claim_C5 (m : List Char) (h2 : 2 ≤ m.length) (h3 : m.length ≤ 3)
    (hr : romanL.contains (jsLower m) = false)
    (hp : particleL.contains (jsLower m) = false) :
    properNameCapitalizerL true m = m ∧
      (∀ s : String, hasBothUpperAndLower s = true ↔
        ((∃ c ∈ s.data, 65 ≤ c.toNat ∧ c.toNat ≤ 90) ∧
         (∃ c ∈ s.data, 97 ≤ c.toNat ∧ c.toNat ≤ 122))) ∧
      proper "ABC company" = "ABC Company" := by
  refine ⟨?_, fun s => ?_, by decide⟩
  · unfold properNameCapitalizerL
    have h1 : ¬ (m.length == 1) = true := by
      simp
      omega
    have hr' : jsLower m ∉ romanL := by simpa using hr
    have hp' : jsLower m ∉ particleL := by simpa using hp
    simp [h1, h3, hr', hp']
  · simp [hasBothUpperAndLower, hasBothUpperAndLowerL, List.any_eq_true]

/-- C5 witness: instantiating at the token `ABC`. -/
theorem claim_C5_witness :
    properNameCapitalizerL true ['A','B','C'] = ['A','B','C'] ∧
      (∀ s : String, hasBothUpperAndLower s = true ↔
        ((∃ c ∈ s.data, 65 ≤ c.toNat ∧ c.toNat ≤ 90) ∧
         (∃ c ∈ s.data, 97 ≤ c.toNat ∧ c.toNat ≤ 122))) ∧
      proper "ABC company" = "ABC Company" :=
  claim_C5 ['A','B','C'] (by decide) (by decide) (by decide) (by decide)

/-- The counterexample input to C3 as stated: `"‘a ‘b"`. -/
def c3s : String := ⟨[lsq, 'a', ' ', lsq, 'b']⟩

/-- C3 counterexample: for `s = "‘a ‘b"`, the output `quotes s = "‘a ’b"`
contains no straight apostrophe, no straight double quote, no `--` and no
`..` — yet a second application of `quotes` changes it to `"’a ’b"`: the
backwards-apostrophe rule 10 flips the surviving opening quote on the
second pass (its lookahead now sees the `’` produced by the first pass),
so the claimed idempotence fails. -/
theorem claim_C3_counterexample :
    ((quotes c3s).data.all (fun c => !(c == apos) && !(c == dquote)) = true ∧
     ¬ ['-','-'] <:+: (quotes c3s).data ∧ ¬ ['.','.'] <:+: (quotes c3s).data) ∧
    quotes (quotes c3s) ≠ quotes c3s := by
  constructor
  · refine ⟨by decide, ?_, ?_⟩ <;> decide
  · decide

/-- C3 as amended: `quotes` is idempotent on its own output provided the
output additionally contains no opening curly single quote U+2018 (on such
output every rule of the cascade is a no-op). -/
theorem claim_C3 (s : String) (h1 : apos ∉ (quotes s).data)
    (h2 : dquote ∉ (quotes s).data) (h3 : lsq ∉ (quotes s).data)
    (h4 : ¬ ['-','-'] <:+: (quotes s).data)
    (h5 : ¬ ['.','.'] <:+: (quotes s).data) :
    quotes (quotes s) = quotes s := by
  show (⟨quotesL (quotes s).data⟩ : String) = quotes s
  rw [quotesL_id _ h1 h2 h3 h4 h5]

/-- C3 witness: the input `"it's"`, whose `quotes` output `"it’s"`
satisfies all side conditions. -/
theorem claim_C3_witness :
    quotes (quotes ⟨['i','t', apos, 's']⟩) = quotes ⟨['i','t', apos, 's']⟩ :=
  claim_C3 ⟨['i','t', apos, 's']⟩ (by decide) (by decide) (by decide)
    (by decide) (by decide)

/-- Unfolding bridge: the characters of `quotes s`. -/
theorem quotes_data (s : String) : (quotes s).data = quotesL s.data := by
  simp [quotes]

/-- Unfolding bridge: the characters of `proper s`. -/
theorem proper_data (s : String) : (proper s).data = properL s.data := by
  simp [proper]

/-- Character containment for a whole rule application. -/
theorem replaceAll_chars (re : RE) (t : List TP) (hg : grpFreeT t = true)
    (l : List Char) (c : Char) (hc : c ∈ replaceAll re t l) :
    c ∈ l ∨ c ∈ tpLits t := by
  unfold replaceAll at hc
  exact replAux_chars re t _ hg _ none l c hc

/-- A whole rule application of a single-literal regex eliminates that
character (template capture-free and not containing it). -/
theorem replaceAll_lit_complete (ch : Char) (t : List TP)
    (hg : grpFreeT t = true) (hch : ch ∉ tpLits t) (l : List Char) :
    ch ∉ replaceAll (RE.lit ch) t l := by
  unfold replaceAll
  exact replAux_lit_complete ch t hg hch _ (by omega) _ none l (by omega)

/-- No straight apostrophe and no straight double quote survives the
`quotes` cascade: rules 11 and 12 eliminate them and the remaining rules
cannot reintroduce them. -/
theorem quotesL_no_straight (l : List Char) (c : Char) (hc : c ∈ quotesL l) :
    c ≠ apos ∧ c ≠ dquote := by
  unfold quotesL quoteRules at hc
  simp only [List.foldl_cons, List.foldl_nil] at hc
  set l10 := replaceAll rule10.1 rule10.2 (replaceAll rule9.1 rule9.2
    (replaceAll rule8.1 rule8.2 (replaceAll rule7.1 rule7.2
    (replaceAll rule6.1 rule6.2 (replaceAll rule5.1 rule5.2
    (replaceAll rule4.1 rule4.2 (replaceAll rule3.1 rule3.2
    (replaceAll rule2.1 rule2.2 (replaceAll rule1.1 rule1.2 l))))))))) with hl10
  have hnq : dquote ∉ replaceAll rule11.1 rule11.2 l10 :=
    replaceAll_lit_complete dquote rule11.2 (by decide) (by decide) l10
  have hna : apos ∉ replaceAll rule12.1 rule12.2 (replaceAll rule11.1 rule11.2 l10) :=
    replaceAll_lit_complete apos rule12.2 (by decide) (by decide) _
  have hnq2 : dquote ∉ replaceAll rule12.1 rule12.2 (replaceAll rule11.1 rule11.2 l10) := by
    intro hmem
    rcases replaceAll_chars rule12.1 rule12.2 (by decide) _ dquote hmem with h | h
    · exact hnq h
    · rw [show tpLits rule12.2 = [prime1] from by decide] at h
      simp only [List.mem_singleton] at h
      exact absurd h (by decide)
  rcases replaceAll_chars rule14.1 rule14.2 (by decide) _ c hc with h | h
  · rcases replaceAll_chars rule13.1 rule13.2 (by decide) _ c h with h2 | h2
    · exact ⟨fun he => hna (he ▸ h2), fun he => hnq2 (he ▸ h2)⟩
    · rw [show tpLits rule13.2 = [emdash] from by decide] at h2
      simp only [List.mem_singleton] at h2
      subst h2
      exact ⟨by decide, by decide⟩
  · rw [show tpLits rule14.2 = [hellip] from by decide] at h
    simp only [List.mem_singleton] at h
    subst h
    exact ⟨by decide, by decide⟩

/-- C7: for every input, the output of `quotes` contains no ASCII straight
apostrophe and no ASCII straight double quote: rule 11 converts every
remaining `"` to a double prime, rule 12 every remaining `'` to a prime,
and the two final rules only introduce an em dash or an ellipsis. -/
theorem claim_C7 (s : String) :
    (quotes s).data.all (fun c => !(c == apos) && !(c == dquote)) = true := by
  rw [quotes_data, List.all_eq_true]
  intro c hcm
  have h := quotesL_no_straight s.data c hcm
  simp only [Bool.and_eq_true, Bool.not_eq_true', beq_eq_false_iff_ne]
  exact h

/-- C8 counterexample: the input `"--"` contains no quote-like character
at all (no straight or curly quote, no prime), yet `quotes` rewrites it to
an em dash — the `--` and `..` rules fire on quote-free input, so such
input is not always returned unchanged. -/
theorem claim_C8_counterexample :
    (∀ c ∈ ("--" : String).data, c ≠ apos ∧ c ≠ dquote ∧ c ≠ lsq ∧ c ≠ rsq ∧
      c ≠ ldq ∧ c ≠ rdq ∧ c ≠ prime1 ∧ c ≠ prime2 ∧ c ≠ prime3) ∧
    quotes "--" ≠ "--" := by
  constructor
  · decide
  · decide

/-- C8 as amended: an input with no quote-like characters **and** no two
consecutive hyphens and no two consecutive periods is returned unchanged
by `quotes` (the em-dash and ellipsis rules are the only rules that can
fire on quote-free input); and `quotes` of the empty string is the empty
string. -/
theorem claim_C8 (s : String)
    (h : ∀ c ∈ s.data, c ≠ apos ∧ c ≠ dquote ∧ c ≠ lsq ∧ c ≠ rsq ∧
      c ≠ ldq ∧ c ≠ rdq ∧ c ≠ prime1 ∧ c ≠ prime2 ∧ c ≠ prime3)
    (hd : ¬ ['-','-'] <:+: s.data) (hp : ¬ ['.','.'] <:+: s.data) :
    quotes s = s ∧ quotes "" = "" := by
  refine ⟨?_, by decide⟩
  show (⟨quotesL s.data⟩ : String) = s
  rw [quotesL_id s.data (fun hm => ((h _ hm).1 rfl))
    (fun hm => ((h _ hm).2.1 rfl)) (fun hm => ((h _ hm).2.2.1 rfl)) hd hp]

/-- C8 witness: a plain word is returned unchanged. -/
theorem claim_C8_witness :
    quotes "some plain text" = "some plain text" ∧ quotes "" = "" :=
  claim_C8 "some plain text" (by decide) (by decide) (by decide)

/-- Evaluation of `Char.ofNat` below the surrogate range. -/
theorem charOfNat_toNat (n : Nat) (h : n < 55296) : (Char.ofNat n).toNat = n := by
  simp [Char.ofNat, Char.ofNatAux, Nat.isValidChar, h, Char.toNat, UInt32.toNat]

/-- Characters are determined by their code points. -/
theorem charEq_of_toNat (c d : Char) (h : c.toNat = d.toNat) : c = d := by
  rw [← Char.ofNat_toNat c, ← Char.ofNat_toNat d, h]

/-- Lowercasing keeps a character in the allowed set (with Ÿ mapping to
ÿ). -/
theorem jsToLowerChar_allowed (c : Char)
    (h : allowedInB c = true ∨ c = Char.ofNat 0x178) :
    allowedInB (jsToLowerChar c) = true := by
  have hn : allowedInB c = true ∨ c.toNat = 0x178 := by
    rcases h with h | h
    · exact Or.inl h
    · exact Or.inr (by rw [h]; exact charOfNat_toNat _ (by omega))
  simp only [allowedInB, Bool.or_eq_true, Bool.and_eq_true, decide_eq_true_eq,
    beq_iff_eq] at hn ⊢
  unfold jsToLowerChar
  split_ifs with h1 h2 h3
  · simp only [Bool.and_eq_true, decide_eq_true_eq] at h1
    rw [charOfNat_toNat _ (by omega)]
    omega
  · simp only [Bool.and_eq_true, decide_eq_true_eq, Bool.not_eq_true',
      beq_eq_false_iff_ne] at h2
    rw [charOfNat_toNat _ (by omega)]
    omega
  · rw [charOfNat_toNat _ (by omega)]
    omega
  · simp only [Bool.and_eq_true, decide_eq_true_eq, Bool.not_eq_true',
      beq_eq_false_iff_ne, not_and, beq_iff_eq] at h1 h2 h3
    omega

/-- Uppercasing keeps every produced character in the allowed set or
yields Ÿ. -/
theorem jsToUpperChar_allowed (c : Char)
    (h : allowedInB c = true ∨ c = Char.ofNat 0x178) :
    ∀ d ∈ jsToUpperChar c, allowedInB d = true ∨ d = Char.ofNat 0x178 := by
  have hn : allowedInB c = true ∨ c.toNat = 0x178 := by
    rcases h with h | h
    · exact Or.inl h
    · exact Or.inr (by rw [h]; exact charOfNat_toNat _ (by omega))
  intro d hd
  simp only [allowedInB, Bool.or_eq_true, Bool.and_eq_true, decide_eq_true_eq,
    beq_iff_eq] at hn
  unfold jsToUpperChar at hd
  split_ifs at hd with h1 h2 h3 h4 h5
  · simp only [Bool.and_eq_true, decide_eq_true_eq] at h1
    simp only [List.mem_singleton] at hd
    subst hd
    left
    simp only [allowedInB, Bool.or_eq_true, Bool.and_eq_true, decide_eq_true_eq,
      beq_iff_eq]
    rw [charOfNat_toNat _ (by omega)]
    omega
  · simp only [List.mem_cons, List.not_mem_nil, or_false] at hd
    rcases hd with hd | hd <;>
    · subst hd
      left
      simp only [allowedInB, Bool.or_eq_true, Bool.and_eq_true, decide_eq_true_eq,
        beq_iff_eq]
      rw [charOfNat_toNat _ (by omega)]
      omega
  · simp only [Bool.and_eq_true, decide_eq_true_eq, Bool.not_eq_true',
      beq_eq_false_iff_ne] at h3
    simp only [List.mem_singleton] at hd
    subst hd
    left
    simp only [allowedInB, Bool.or_eq_true, Bool.and_eq_true, decide_eq_true_eq,
      beq_iff_eq]
    rw [charOfNat_toNat _ (by omega)]
    omega
  · simp only [List.mem_singleton] at hd
    subst hd
    right
    rfl
  · simp only [beq_iff_eq] at h5
    exfalso
    omega
  · simp only [List.mem_singleton] at hd
    subst hd
    rcases hn with hn | hn
    · left
      simp only [allowedInB, Bool.or_eq_true, Bool.and_eq_true, decide_eq_true_eq,
        beq_iff_eq]
      omega
    · right
      exact charEq_of_toNat _ _ (by rw [hn, charOfNat_toNat _ (by omega)])

/-- Lowercasing never produces a space from a non-space. -/
theorem jsToLowerChar_toNat_ne (c : Char) (h : c.toNat ≠ 32) :
    (jsToLowerChar c).toNat ≠ 32 := by
  unfold jsToLowerChar
  split_ifs with h1 h2 h3
  · simp only [Bool.and_eq_true, decide_eq_true_eq] at h1
    rw [charOfNat_toNat _ (by omega)]
    omega
  · simp only [Bool.and_eq_true, decide_eq_true_eq] at h2
    rw [charOfNat_toNat _ (by omega)]
    omega
  · rw [charOfNat_toNat _ (by omega)]
    omega
  · exact h

/-- Uppercasing never produces a space from a non-space. -/
theorem jsToUpperChar_toNat_ne (c : Char) (h : c.toNat ≠ 32) :
    ∀ d ∈ jsToUpperChar c, d.toNat ≠ 32 := by
  intro d hd
  unfold jsToUpperChar at hd
  split_ifs at hd with h1 h2 h3 h4 h5
  · simp only [Bool.and_eq_true, decide_eq_true_eq] at h1
    simp only [List.mem_singleton] at hd
    subst hd
    rw [charOfNat_toNat _ (by omega)]
    omega
  · simp only [List.mem_cons, List.not_mem_nil, or_false] at hd
    rcases hd with hd | hd <;>
    · subst hd
      rw [charOfNat_toNat _ (by omega)]
      omega
  · simp only [Bool.and_eq_true, decide_eq_true_eq] at h3
    simp only [List.mem_singleton] at hd
    subst hd
    rw [charOfNat_toNat _ (by omega)]
    omega
  · simp only [List.mem_singleton] at hd
    subst hd
    rw [charOfNat_toNat _ (by omega)]
    omega
  · simp only [List.mem_singleton] at hd
    subst hd
    rw [charOfNat_toNat _ (by omega)]
    omega
  · simp only [List.mem_singleton] at hd
    subst hd
    exact h

/-- Uppercasing one character never yields the empty string. -/
theorem jsToUpperChar_ne_nil (c : Char) : jsToUpperChar c ≠ [] := by
  unfold jsToUpperChar
  split_ifs <;> simp

/-- Characters of `ucFirst` come from the input or from uppercasing an
input character. -/
theorem ucFirstL_chars (l : List Char) (d : Char) (hd : d ∈ ucFirstL l) :
    d ∈ l ∨ ∃ c ∈ l, d ∈ jsToUpperChar c := by
  cases l with
  | nil => simp [ucFirstL] at hd
  | cons c r =>
    simp only [ucFirstL, List.mem_append] at hd
    rcases hd with hd | hd
    · exact Or.inr ⟨c, List.mem_cons_self c r, hd⟩
    · exact Or.inl (List.mem_cons_of_mem c hd)

/-- Characters of the compound-name fix-up come from the input or from
uppercasing an input character. -/
theorem mcFix_chars (l : List Char) (d : Char) (hd : d ∈ mcFix l) :
    d ∈ l ∨ ∃ c ∈ l, d ∈ jsToUpperChar c := by
  have sub3 : ∀ l', d ∈ ucFirstL l' → l' ⊆ l → d ∈ l ∨ ∃ c ∈ l, d ∈ jsToUpperChar c := by
    intro l' hx hsub
    rcases ucFirstL_chars l' d hx with h | ⟨c, hc, hxc⟩
    · exact Or.inl (hsub h)
    · exact Or.inr ⟨c, hsub hc, hxc⟩
  rcases l with _ | ⟨c1, _ | ⟨c2, _ | ⟨c3, rest⟩⟩⟩
  · exact Or.inl hd
  · exact Or.inl hd
  · exact Or.inl hd
  · simp only [mcFix] at hd
    split_ifs at hd with h1 h2 h3
    · simp only [List.mem_append] at hd
      rcases hd with hd | hd
      · exact sub3 [c1, c2, c3] hd (by intro x hx; simp at hx; rcases hx with h|h|h <;> simp [h])
      · exact sub3 rest hd (by intro x hx; simp [hx])
    · simp only [List.mem_append] at hd
      rcases hd with hd | hd
      · exact sub3 [c1, c2] hd (by intro x hx; simp at hx; rcases hx with h|h <;> simp [h])
      · exact sub3 (c3 :: rest) hd (by intro x hx; simp at hx; rcases hx with h|h <;> simp [h])
    · simp only [List.mem_append] at hd
      rcases hd with hd | hd
      · exact sub3 [c1, c2] hd (by intro x hx; simp at hx; rcases hx with h|h <;> simp [h])
      · exact sub3 (c3 :: rest) hd (by intro x hx; simp at hx; rcases hx with h|h <;> simp [h])
    · exact Or.inl hd

/-- `ucFirst` of a nonempty string is nonempty. -/
theorem ucFirstL_ne_nil (l : List Char) (h : l ≠ []) : ucFirstL l ≠ [] := by
  cases l with
  | nil => exact absurd rfl h
  | cons c r =>
    simp only [ucFirstL, ne_eq, List.append_eq_nil]
    rintro ⟨h1, -⟩
    exact jsToUpperChar_ne_nil c h1

/-- The compound-name fix-up of a nonempty string is nonempty. -/
theorem mcFix_ne_nil (l : List Char) (h : l ≠ []) : mcFix l ≠ [] := by
  rcases l with _ | ⟨c1, _ | ⟨c2, _ | ⟨c3, rest⟩⟩⟩
  · exact absurd rfl h
  · simp [mcFix]
  · simp [mcFix]
  · simp only [mcFix]
    split_ifs <;>
      simp only [ne_eq, List.append_eq_nil, List.cons_ne_nil, not_false_iff,
        false_and, and_false, not_and] <;>
      intro hu <;>
      exact absurd hu (ucFirstL_ne_nil _ (by simp))

/-- Every character produced by the token capitalizer on an allowed-set
token is in the allowed set or is the letter Ÿ. -/
theorem capitalizer_chars (mixed : Bool) (m : List Char)
    (hm : ∀ c ∈ m, allowedInB c = true) :
    ∀ d ∈ properNameCapitalizerL mixed m,
      allowedInB d = true ∨ d = Char.ofNat 0x178 := by
  intro d hd
  have hlow : ∀ c ∈ jsLower m, allowedInB c = true := by
    intro c hc
    simp only [jsLower, List.mem_map] at hc
    obtain ⟨e, he, rfl⟩ := hc
    exact jsToLowerChar_allowed e (Or.inl (hm e he))
  have hup : ∀ d ∈ jsUpper m, allowedInB d = true ∨ d = Char.ofNat 0x178 := by
    intro d hd
    simp only [jsUpper, List.mem_flatMap] at hd
    obtain ⟨e, he, hde⟩ := hd
    exact jsToUpperChar_allowed e (Or.inl (hm e he)) d hde
  have hfix : ∀ d ∈ mcFix (ucFirstL (jsLower m)),
      allowedInB d = true ∨ d = Char.ofNat 0x178 := by
    have hin : ∀ c ∈ ucFirstL (jsLower m),
        allowedInB c = true ∨ c = Char.ofNat 0x178 := by
      intro c hc
      rcases ucFirstL_chars _ c hc with h | ⟨e, he, hce⟩
      · exact Or.inl (hlow c h)
      · exact jsToUpperChar_allowed e (Or.inl (hlow e he)) c hce
    intro d hd
    rcases mcFix_chars _ d hd with h | ⟨e, he, hde⟩
    · exact hin d h
    · exact jsToUpperChar_allowed e (hin e he) d hde
  simp only [properNameCapitalizerL] at hd
  split_ifs at hd
  · exact hup d hd
  · exact hup d hd
  · exact Or.inl (hlow d hd)
  · exact Or.inl (hm d hd)
  · exact hfix d hd
  · exact hfix d hd

/-- The token capitalizer never returns the empty string on a nonempty
token. -/
theorem capitalizer_ne_nil (mixed : Bool) (m : List Char) (h : m ≠ []) :
    properNameCapitalizerL mixed m ≠ [] := by
  have hlow : jsLower m ≠ [] := by
    simp only [jsLower, ne_eq, List.map_eq_nil_iff]
    exact h
  have hup : jsUpper m ≠ [] := by
    cases m with
    | nil => exact absurd rfl h
    | cons c r =>
      simp only [jsUpper, List.flatMap_cons, ne_eq, List.append_eq_nil]
      rintro ⟨h1, -⟩
      exact jsToUpperChar_ne_nil c h1
  simp only [properNameCapitalizerL]
  split_ifs
  · exact hup
  · exact hup
  · exact hlow
  · exact h
  · exact mcFix_ne_nil _ (ucFirstL_ne_nil _ hlow)
  · exact mcFix_ne_nil _ (ucFirstL_ne_nil _ hlow)

/-- The token capitalizer never produces a space from a space-free token. -/
theorem capitalizer_nospace (mixed : Bool) (m : List Char)
    (hm : ∀ c ∈ m, c.toNat ≠ 32) :
    ∀ d ∈ properNameCapitalizerL mixed m, d.toNat ≠ 32 := by
  intro d hd
  have hlow : ∀ c ∈ jsLower m, c.toNat ≠ 32 := by
    intro c hc
    simp only [jsLower, List.mem_map] at hc
    obtain ⟨e, he, rfl⟩ := hc
    exact jsToLowerChar_toNat_ne e (hm e he)
  have hup : ∀ d ∈ jsUpper m, d.toNat ≠ 32 := by
    intro d hd
    simp only [jsUpper, List.mem_flatMap] at hd
    obtain ⟨e, he, hde⟩ := hd
    exact jsToUpperChar_toNat_ne e (hm e he) d hde
  have hfix : ∀ d ∈ mcFix (ucFirstL (jsLower m)), d.toNat ≠ 32 := by
    have hin : ∀ c ∈ ucFirstL (jsLower m), c.toNat ≠ 32 := by
      intro c hc
      rcases ucFirstL_chars _ c hc with h | ⟨e, he, hce⟩
      · exact hlow c h
      · exact jsToUpperChar_toNat_ne e (hlow e he) c hce
    intro d hd
    rcases mcFix_chars _ d hd with h | ⟨e, he, hde⟩
    · exact hin d h
    · exact jsToUpperChar_toNat_ne e (hin e he) d hde
  simp only [properNameCapitalizerL] at hd
  split_ifs at hd
  · exact hup d hd
  · exact hup d hd
  · exact hlow d hd
  · exact hm d hd
  · exact hfix d hd
  · exact hfix d hd

/-- Characters of the space-collapsing pass come from the input or are a
space. -/
theorem collapseAux_chars :
    ∀ (fuel : Nat) (l : List Char) (c : Char),
      c ∈ collapseAux fuel l → c ∈ l ∨ c = ' ' := by
  intro fuel
  induction fuel with
  | zero => intro l c hc; exact Or.inl hc
  | succ fuel ih =>
    intro l c hc
    cases l with
    | nil => simp [collapseAux] at hc
    | cons a r =>
      simp only [collapseAux] at hc
      split_ifs at hc with h
      · simp only [List.mem_cons] at hc
        rcases hc with hc | hc
        · exact Or.inr hc
        · rcases ih _ c hc with h' | h'
          · exact Or.inl (List.mem_cons_of_mem a ((List.dropWhile_sublist _).subset h'))
          · exact Or.inr h'
      · simp only [List.mem_cons] at hc
        rcases hc with hc | hc
        · exact Or.inl (by simp [hc])
        · rcases ih _ c hc with h' | h'
          · exact Or.inl (List.mem_cons_of_mem a h')
          · exact Or.inr h'

/-- The space-collapsing pass preserves the first character. -/
theorem collapseAux_head (fuel : Nat) (l : List Char) :
    (collapseAux fuel l).head? = l.head? := by
  cases fuel with
  | zero => rfl
  | succ fuel =>
    cases l with
    | nil => rfl
    | cons a r =>
      simp only [collapseAux]
      split_ifs with h
      · simp only [Bool.and_eq_true, beq_iff_eq] at h
        simp [h.1]
      · simp

/-- The head of a `dropWhile` fails the predicate. -/
theorem head?_dropWhile_not (p : Char → Bool) :
    ∀ (l : List Char) (a : Char), (l.dropWhile p).head? = some a → p a = false := by
  intro l
  induction l with
  | nil => intro a h; simp [List.dropWhile] at h
  | cons c r ih =>
    intro a h
    simp only [List.dropWhile] at h
    by_cases hp : p c
    · rw [hp] at h
      exact ih a h
    · simp only [Bool.not_eq_true] at hp
      rw [hp] at h
      simp only [List.head?_cons, Option.some.injEq] at h
      rw [← h]
      exact hp

/-- The output of the space-collapsing pass has no two adjacent spaces. -/
theorem collapseAux_chain :
    ∀ (fuel : Nat) (l : List Char), l.length < fuel →
      List.Chain' spR (collapseAux fuel l) := by
  intro fuel
  induction fuel with
  | zero => intro l h; omega
  | succ fuel ih =>
    intro l hlen
    cases l with
    | nil => simp [collapseAux]
    | cons a r =>
      simp only [collapseAux]
      split_ifs with h
      · rw [List.chain'_cons']
        have hlen' : (r.dropWhile (fun d => d == ' ')).length < fuel := by
          have := (List.dropWhile_sublist (l := r) (fun d => d == ' ')).length_le
          simp only [List.length_cons] at hlen
          omega
        refine ⟨?_, ih _ hlen'⟩
        intro y hy
        rw [collapseAux_head] at hy
        have : (y == ' ') = false :=
          head?_dropWhile_not _ _ y hy
        intro hcon
        rw [hcon.2] at this
        simp at this
      · rw [List.chain'_cons']
        have hlen' : r.length < fuel := by
          simp only [List.length_cons] at hlen
          omega
        refine ⟨?_, ih _ hlen'⟩
        intro y hy
        rw [collapseAux_head] at hy
        rintro ⟨ha, hy'⟩
        subst ha
        subst hy'
        have hr : r.head? = some ' ' := hy
        rw [Bool.and_eq_true] at h
        exact h ⟨by simp, by simp [hr]⟩

/-- `trimRight` returns a prefix of its input. -/
theorem trimRightL_pref : ∀ l : List Char, trimRightL l <+: l := by
  intro l
  induction l with
  | nil => exact ⟨[], List.append_nil _⟩
  | cons c r ih =>
    simp only [trimRightL]
    cases h : trimRightL r with
    | nil =>
      split_ifs
      · exact ⟨c :: r, rfl⟩
      · exact ⟨r, rfl⟩
    | cons d r' =>
      rw [h] at ih
      obtain ⟨t, ht⟩ := ih
      exact ⟨t, by rw [List.cons_append, ht]⟩

/-- The last character surviving `trimRight` is not whitespace. -/
theorem trimRightL_last :
    ∀ (l : List Char) (a : Char), (trimRightL l).getLast? = some a →
      isJsSpace a = false := by
  intro l
  induction l with
  | nil => intro a h; simp [trimRightL] at h
  | cons c r ih =>
    intro a h
    simp only [trimRightL] at h
    cases hr : trimRightL r with
    | nil =>
      rw [hr] at h
      split_ifs at h with hsp
      · simp at h
      · simp only [List.getLast?_singleton, Option.some.injEq] at h
        rw [← h]
        simpa using hsp
    | cons d r' =>
      rw [hr] at h
      rw [List.getLast?_cons_cons] at h
      exact ih a (by rw [hr]; exact h)

/-- The empty list maps to the empty list. -/
theorem mapTokensAux_nil (f : List Char → List Char) (fuel : Nat) :
    mapTokensAux f fuel [] = [] := by
  cases fuel <;> rfl

/-- Token rewriting of a nonempty list is nonempty (token images being
nonempty). -/
theorem mapTokensAux_ne (f : List Char → List Char)
    (hne : ∀ tok, tok ≠ [] → f tok ≠ []) :
    ∀ (fuel : Nat) (l : List Char), l ≠ [] → mapTokensAux f fuel l ≠ [] := by
  intro fuel l hl
  cases fuel with
  | zero => exact hl
  | succ fuel =>
    cases l with
    | nil => exact absurd rfl hl
    | cons c r =>
      simp only [mapTokensAux]
      split_ifs
      · simp
      · exact List.append_ne_nil_of_left_ne_nil (hne _ (by simp)) _

/-- Character containment through token rewriting. -/
theorem mapTokensAux_chars (f : List Char → List Char) (P Q : Char → Prop)
    (hPQ : ∀ c, P c → Q c)
    (hf : ∀ tok, (∀ c ∈ tok, P c) → ∀ d ∈ f tok, Q d) :
    ∀ (fuel : Nat) (l : List Char), (∀ c ∈ l, P c) →
      ∀ d ∈ mapTokensAux f fuel l, Q d := by
  intro fuel
  induction fuel with
  | zero => intro l hl d hd; exact hPQ d (hl d hd)
  | succ fuel ih =>
    intro l hl d hd
    cases l with
    | nil => simp [mapTokensAux] at hd
    | cons c r =>
      simp only [mapTokensAux] at hd
      split_ifs at hd
      · simp only [List.mem_cons] at hd
        rcases hd with hd | hd
        · exact hPQ d (hl d (by simp [hd]))
        · exact ih r (fun x hx => hl x (List.mem_cons_of_mem c hx)) d hd
      · simp only [List.mem_append] at hd
        rcases hd with hd | hd
        · refine hf _ ?_ d hd
          intro x hx
          simp only [List.mem_cons] at hx
          rcases hx with hx | hx
          · exact hl x (by simp [hx])
          · exact hl x (List.mem_cons_of_mem c ((List.takeWhile_sublist _).subset hx))
        · exact ih _ (fun x hx => hl x
            (List.mem_cons_of_mem c ((List.dropWhile_sublist _).subset hx))) d hd

/-- A list of non-space characters trivially has no adjacent spaces. -/
theorem chain'_of_nospace (L : List Char) (h : ∀ d ∈ L, d.toNat ≠ 32) :
    List.Chain' spR L := by
  induction L with
  | nil => simp
  | cons a t ih =>
    rw [List.chain'_cons']
    refine ⟨?_, ih (fun d hd => h d (List.mem_cons_of_mem a hd))⟩
    intro y _
    intro hcon
    exact h a (by simp) (by rw [hcon.1]; decide)

/-- The last element of a nonempty suffix is the last element of the whole
list. -/
theorem getLast?_suffix_eq (l' l : List Char) (hs : l' <:+ l) (hne : l' ≠ []) :
    l'.getLast? = l.getLast? := by
  obtain ⟨p, rfl⟩ := hs
  rw [List.getLast?_append]
  have : l'.getLast?.isSome = true := List.getLast?_isSome.mpr hne
  cases h : l'.getLast? with
  | none => rw [h] at this; simp at this
  | some a => simp

/-- Dropping the head does not change the last element of a list with at
least two elements. -/
theorem getLast?_cons_ne (c : Char) (r : List Char) (h : r ≠ []) :
    (c :: r).getLast? = r.getLast? := by
  cases r with
  | nil => exact absurd rfl h
  | cons d t => exact List.getLast?_cons_cons

/-- The boolean `noDoubleSp` coincides with the chain of `spR`. -/
theorem noDoubleSp_iff (l : List Char) :
    noDoubleSp l = true ↔ List.Chain' spR l := by
  induction l with
  | nil => simp [noDoubleSp]
  | cons a t ih =>
    cases t with
    | nil => simp [noDoubleSp]
    | cons b r =>
      rw [List.chain'_cons, ← ih]
      simp only [noDoubleSp, Bool.and_eq_true, Bool.not_eq_true',
        Bool.and_eq_false_iff, beq_eq_false_iff_ne]
      constructor
      · rintro ⟨h1, h2⟩
        refine ⟨?_, h2⟩
        rintro ⟨ha, hb⟩
        rcases h1 with h | h
        · exact h ha
        · exact h hb
      · rintro ⟨h1, h2⟩
        refine ⟨?_, h2⟩
        by_cases ha : a = ' '
        · exact Or.inr (fun hb => h1 ⟨ha, hb⟩)
        · exact Or.inl ha

/-- Token rewriting preserves the isolated-spaces invariants: if the input
has no adjacent spaces and no trailing space, so does the output, and the
output can only start with a space if the input did. -/
theorem mapTokensAux_spaces (f : List Char → List Char)
    (hne : ∀ tok, tok ≠ [] → f tok ≠ [])
    (hsp : ∀ tok, (∀ c ∈ tok, isSepC c = false) → ∀ d ∈ f tok, d.toNat ≠ 32) :
    ∀ (fuel : Nat) (l : List Char), List.Chain' spR l → lastNotSp l = true →
      (List.Chain' spR (mapTokensAux f fuel l) ∧
       lastNotSp (mapTokensAux f fuel l) = true ∧
       ((mapTokensAux f fuel l).head? = some ' ' → l.head? = some ' ')) := by
  intro fuel
  induction fuel with
  | zero => intro l h1 h2; exact ⟨h1, h2, fun h => h⟩
  | succ fuel ih =>
    intro l hch hlast
    cases l with
    | nil => exact ⟨by simp [mapTokensAux], by simp [mapTokensAux, lastNotSp], by simp [mapTokensAux]⟩
    | cons c r =>
      simp only [mapTokensAux]
      split_ifs with hsep
      · -- separator head: copied verbatim
        have hch_r : List.Chain' spR r := (List.chain'_cons'.mp hch).2
        by_cases hr : r = []
        · subst hr
          rw [mapTokensAux_nil]
          exact ⟨List.chain'_singleton c, hlast, fun h => h⟩
        · have hlast_r : lastNotSp r = true := by
            unfold lastNotSp at hlast ⊢
            rwa [getLast?_cons_ne c r hr] at hlast
          obtain ⟨ihc, ihl, ihh⟩ := ih r hch_r hlast_r
          have hYne : mapTokensAux f fuel r ≠ [] := mapTokensAux_ne f hne fuel r hr
          refine ⟨?_, ?_, ?_⟩
          · rw [List.chain'_cons']
            refine ⟨?_, ihc⟩
            intro y hy
            rintro ⟨hc', hy'⟩
            subst hy'
            have hrh : r.head? = some ' ' := ihh (by rw [hy])
            have := (List.chain'_cons'.mp hch).1 ' ' (by rw [hrh]; rfl)
            exact this ⟨hc', rfl⟩
          · unfold lastNotSp
            rwa [getLast?_cons_ne c _ hYne]
          · intro h
            simp only [List.head?_cons, Option.some.injEq] at h ⊢
            exact h
      · -- token head: rewrite the token, recurse on the remainder
        have htok_sp : ∀ x ∈ c :: r.takeWhile (fun d => !isSepC d), isSepC x = false := by
          intro x hx
          simp only [List.mem_cons] at hx
          rcases hx with hx | hx
          · subst hx
            simpa using hsep
          · have := List.mem_takeWhile_imp hx
            simpa using this
        have hfsp : ∀ d ∈ f (c :: r.takeWhile (fun d => !isSepC d)), d.toNat ≠ 32 :=
          hsp _ htok_sp
        have hfne : f (c :: r.takeWhile (fun d => !isSepC d)) ≠ [] := hne _ (by simp)
        have hch_r' : List.Chain' spR (r.dropWhile (fun d => !isSepC d)) :=
          ((List.chain'_cons'.mp hch).2).suffix (List.dropWhile_suffix _)
        by_cases hr' : r.dropWhile (fun d => !isSepC d) = []
        · rw [hr', mapTokensAux_nil]
          refine ⟨?_, ?_, ?_⟩
          · rw [List.append_nil]
            exact chain'_of_nospace _ hfsp
          · rw [List.append_nil]
            unfold lastNotSp
            cases hgl : (f (c :: r.takeWhile (fun d => !isSepC d))).getLast? with
            | none => rfl
            | some a =>
              have : a.toNat ≠ 32 := hfsp a (List.mem_of_mem_getLast? hgl)
              simp only [Bool.not_eq_true', beq_eq_false_iff_ne]
              intro hcon
              rw [hcon] at this
              exact this rfl
          · rw [List.append_nil]
            intro h
            have : (' ' : Char).toNat ≠ 32 := hfsp ' ' (List.mem_of_mem_head? (by rw [h]; rfl))
            exact absurd rfl this
        · have hlast_r' : lastNotSp (r.dropWhile (fun d => !isSepC d)) = true := by
            unfold lastNotSp at hlast ⊢
            rw [getLast?_suffix_eq _ (c :: r)
              ((List.dropWhile_suffix _).trans (List.suffix_cons c r)) hr']
            exact hlast
          obtain ⟨ihc, ihl, ihh⟩ := ih _ hch_r' hlast_r'
          have hYne : mapTokensAux f fuel (r.dropWhile (fun d => !isSepC d)) ≠ [] :=
            mapTokensAux_ne f hne fuel _ hr'
          refine ⟨?_, ?_, ?_⟩
          · rw [List.chain'_append]
            refine ⟨chain'_of_nospace _ hfsp, ihc, ?_⟩
            intro x hx y _
            intro hcon
            exact hfsp x (List.mem_of_mem_getLast? hx) (by rw [hcon.1]; decide)
          · unfold lastNotSp
            rw [List.getLast?_append]
            cases hgl : (mapTokensAux f fuel (r.dropWhile (fun d => !isSepC d))).getLast? with
            | none => exact absurd (List.getLast?_eq_none.mp hgl) hYne
            | some a =>
              simp only [Option.or_some]
              unfold lastNotSp at ihl
              rwa [hgl] at ihl
          · intro h
            rw [List.head?_append] at h
            cases hh : (f (c :: r.takeWhile (fun d => !isSepC d))).head? with
            | none =>
              exact absurd (List.head?_eq_none_iff.mp hh) hfne
            | some a =>
              rw [hh, Option.or_some] at h
              have ha : a = ' ' := by simpa using h
              have : a.toNat ≠ 32 := hfsp a (List.mem_of_mem_head? (by rw [hh]; rfl))
              rw [ha] at this
              exact absurd rfl this

/-- C6 counterexample: the multiplication sign `×` (U+00D7) is inside the
code's kept range `À-ÿ` but is not a letter (nor a digit, curly
apostrophe, space, comma or hyphen), and `proper` passes it through
unchanged — so the output is not confined to the claimed character set. -/
theorem claim_C6_counterexample :
    ¬ (∀ c ∈ (proper ⟨[Char.ofNat 0xD7]⟩).data, claimC6Allowed c = true) := by
  decide

/-- C6 as amended: for every input, every character of `proper`'s output
is in the code's kept set {ASCII letters, digits, U+00C0–U+00FF (which
contains the non-letters × and ÷), curly apostrophe, space, comma,
hyphen} or is the letter Ÿ (U+0178, produced by uppercasing ÿ); every
character outside the kept set is replaced by a space before
tokenization. -/
theorem claim_C6 (s : String) :
    (proper s).data.all (fun c => allowedInB c || c == Char.ofNat 0x178) = true := by
  rw [proper_data, List.all_eq_true]
  intro c hc
  unfold properL mapTokens at hc
  have hbase : ∀ x ∈ trimL (collapseSpaces
      (s.data.map (fun c => if allowedInB c then c else ' '))),
      allowedInB x = true := by
    intro x hx
    unfold trimL at hx
    have hx1 := (trimRightL_pref _).subset hx
    have hx2 := (List.dropWhile_suffix isJsSpace).subset hx1
    rcases collapseAux_chars _ _ x hx2 with h | h
    · simp only [List.mem_map] at h
      obtain ⟨y, hy, hxy⟩ := h
      by_cases hyA : allowedInB y = true
      · rw [← hxy, if_pos hyA]
        exact hyA
      · rw [← hxy, if_neg hyA]
        decide
    · rw [h]
      decide
  have hres := mapTokensAux_chars
    (properNameCapitalizerL (hasBothUpperAndLowerL s.data))
    (fun c => allowedInB c = true)
    (fun d => allowedInB d = true ∨ d = Char.ofNat 0x178)
    (fun c h => Or.inl h)
    (fun tok htok => capitalizer_chars _ tok htok)
    _ _ hbase c hc
  rcases hres with h | h
  · simp [h]
  · subst h
    decide

/-- C10: for every input, the output of `proper` has no leading space, no
trailing space and no two adjacent spaces: the restriction's extra spaces
are collapsed and trimmed before token rewriting, and rewritten tokens are
nonempty and space-free. -/
theorem claim_C10 (s : String) :
    (headNotSp (proper s).data && lastNotSp (proper s).data &&
      noDoubleSp (proper s).data) = true := by
  rw [proper_data]
  unfold properL mapTokens
  set L := trimL (collapseSpaces
    (s.data.map (fun c => if allowedInB c then c else ' '))) with hL
  have hch : List.Chain' spR L := by
    have h1 : List.Chain' spR (collapseSpaces
        (s.data.map (fun c => if allowedInB c then c else ' '))) := by
      unfold collapseSpaces
      exact collapseAux_chain _ _ (by omega)
    rw [hL]
    unfold trimL
    exact List.Chain'.prefix (h1.suffix (List.dropWhile_suffix isJsSpace)) (trimRightL_pref _)
  have hlastL : lastNotSp L = true := by
    unfold lastNotSp
    cases hgl : L.getLast? with
    | none => rfl
    | some a =>
      rw [hL] at hgl
      unfold trimL at hgl
      have hsp : isJsSpace a = false := trimRightL_last _ a hgl
      simp only [Bool.not_eq_true', beq_eq_false_iff_ne]
      intro hcon
      rw [hcon] at hsp
      exact absurd hsp (by decide)
  have hheadL : L.head? = some ' ' → False := by
    intro h
    rw [hL] at h
    unfold trimL at h
    obtain ⟨t, ht⟩ := trimRightL_pref
      ((collapseSpaces (s.data.map (fun c => if allowedInB c then c else ' '))).dropWhile
        isJsSpace)
    have hY : ((collapseSpaces
        (s.data.map (fun c => if allowedInB c then c else ' '))).dropWhile
        isJsSpace).head? = some ' ' := by
      rw [← ht, List.head?_append, h, Option.or_some]
    have := head?_dropWhile_not isJsSpace _ ' ' hY
    exact absurd this (by decide)
  obtain ⟨hc, hl, hh⟩ := mapTokensAux_spaces
    (properNameCapitalizerL (hasBothUpperAndLowerL s.data))
    (fun tok htok => capitalizer_ne_nil _ tok htok)
    (fun tok htok => capitalizer_nospace _ tok (fun c hcm => by
      have := htok c hcm
      simp only [isSepC, Bool.or_eq_false_iff, beq_eq_false_iff_ne] at this
      exact this.1.1))
    (L.length + 1) L hch hlastL
  rw [Bool.and_eq_true, Bool.and_eq_true]
  refine ⟨⟨?_, hl⟩, (noDoubleSp_iff _).mpr hc⟩
  unfold headNotSp
  cases hout : mapTokensAux (properNameCapitalizerL (hasBothUpperAndLowerL s.data))
      (L.length + 1) L with
  | nil => rfl
  | cons d t =>
    simp only [Bool.not_eq_true', beq_eq_false_iff_ne]
    intro hcon
    subst hcon
    exact hheadL (hh (by rw [hout]; rfl))

/-- C9: when a pipeline stage throws, the `.or(otherwise)` boundary
behaves by case on `otherwise`: a function is invoked with the causing
error and its result is thrown; an `Error` instance is itself thrown; any
other value is returned as the pipeline's result. -/
theorem claim_C9 {V : Type} (value : V) (sanitizers : List (V → Except ErrorV V))
    (e : ErrorV) (h : pipe value sanitizers = Except.error e) :
    (∀ f, coerceTo value sanitizers (Otherwise.func f) = Outcome.thrown (f e)) ∧
    (∀ er, coerceTo value sanitizers (Otherwise.err er) = Outcome.thrown er) ∧
    (∀ v, coerceTo value sanitizers (Otherwise.val v) = Outcome.returned v) := by
  refine ⟨fun f => ?_, fun er => ?_, fun v => ?_⟩ <;> simp [coerceTo, h, handleFailure]

/-- C9 witness: a sanitizer that always throws, with each of the three
`otherwise` shapes at concrete values. -/
theorem claim_C9_witness :
    coerceTo (0 : Nat) [fun _ => Except.error ⟨"boom"⟩]
        (Otherwise.func (fun er => ⟨er.message ++ "!"⟩)) = Outcome.thrown ⟨"boom!"⟩ ∧
    coerceTo (0 : Nat) [fun _ => Except.error ⟨"boom"⟩]
        (Otherwise.err ⟨"oh no"⟩) = Outcome.thrown ⟨"oh no"⟩ ∧
    coerceTo (0 : Nat) [fun _ => Except.error ⟨"boom"⟩]
        (Otherwise.val 7) = Outcome.returned 7 :=
  ⟨(claim_C9 0 [fun _ => Except.error ⟨"boom"⟩] ⟨"boom"⟩ rfl).1 _,
   (claim_C9 0 [fun _ => Except.error ⟨"boom"⟩] ⟨"boom"⟩ rfl).2.1 _,
   (claim_C9 0 [fun _ => Except.error ⟨"boom"⟩] ⟨"boom"⟩ rfl).2.2 _⟩

end Coerce
